import Mathlib

/-!
# Verification of the Collatz convergent-classes core

Shallow embedding of the core components of the `collatz-convergent-classes`
repository (`src/cpp/path.cpp`, `src/cpp/path.hpp`, `src/cpp/btree.cpp`):
the orbit sequence type (`orbit_node_t`, `orbit_t`), the path engine
(`t_path<int64_t>`: `setpath`, `factor`, `term`, `flow`, `parse`, `ancestry`,
comparison operators) and the frequency tree (`btree`).

The embedding instantiates the path template at `P = int64_t` (the repository
default, `typedef t_path<int64_t> path`), modelling 64-bit signed arithmetic
as `Int` with explicit two's-complement wrapping (`wrap64`), C++ truncating
division (`Int.tdiv` / `Int.tmod`) and the C++ `abs` on `int64_t` (`abs64`,
which fixes `INT64_MIN`).  The global connection constants are those set in
`menu.cpp`: divisor D = 2, multiplier M = 3, addend A = 1.
-/

namespace Collatz

/-- Two's-complement wrap of a mathematical integer into `int64_t` range,
modelling how C++ signed 64-bit arithmetic wraps on overflow. -/
def wrap64 (x : Int) : Int :=
  (x + 2 ^ 63) % 2 ^ 64 - 2 ^ 63

/-- The C++ `sgn` template from `common.hpp`: `(0 < x) - (x < 0)`. -/
def sgn (x : Int) : Int :=
  if 0 < x then 1 else if x < 0 then -1 else 0

/-- C++ `abs` on `int64_t`.  `abs(INT64_MIN)` cannot be represented; the
usual two's-complement behaviour returns `INT64_MIN` itself, which is what
the binary does on every mainstream platform. -/
def abs64 (x : Int) : Int :=
  if x = -(2 ^ 63) then -(2 ^ 63) else |x|

/-- The loop of `t_path<P>::term` from `path.cpp` (lines 1290–1306),
structurally recursive on an explicit iteration bound: repeatedly divide
out the divisor (2), counting the factors removed.  Returns the stripped
value and the factor count. -/
def stripAllF : Nat → Int → Int × Nat
  | 0, i => (i, 0)
  | fuel + 1, i =>
    if i ≠ 0 ∧ i.tmod 2 = 0 then
      let r := stripAllF fuel (i.tdiv 2)
      (r.1, r.2 + 1)
    else (i, 0)

/-- `t_path<P>::term`: the `i = 0` guard of the C++ code is the `i ≠ 0`
conjunct of the loop condition; `|i| + 1` iterations always suffice
(dividing a nonzero value by 2 strictly shrinks its magnitude), so the
bound never truncates the source loop. -/
def stripAll (i : Int) : Int × Nat :=
  stripAllF (i.natAbs + 1) i

/-- The loop of `t_path<P>::factor` from `path.cpp` (lines 1316–1336),
structurally recursive on an explicit iteration bound: divide factors of
the divisor (2) out of `branch`, counting them, but break out of the loop
as soon as the running value's magnitude drops below `|start|`. -/
def factorGoF : Nat → Int → Int → Int × Nat
  | 0, _, branch => (branch, 0)
  | fuel + 1, start, branch =>
    if branch.tmod 2 ≠ 0 then (branch, 0)
    else
      let b := branch.tdiv 2
      if abs64 b < abs64 start then (b, 1)
      else
        let r := factorGoF fuel start b
        (r.1, r.2 + 1)

/-- `t_path<P>::factor` (lines 1316–1336).  `|branch| + 1` iterations
always suffice for a nonzero branch (each division halves the magnitude);
for `branch = 0` with `start ≠ 0` the source loop runs once and breaks
(0/2 = 0 and |0| < |start|), which the model reproduces exactly.  Only for
`branch = 0 ∧ start = 0` does the source loop never terminate — a case
unreachable from `setpath`, whose odd branch passes an odd nonzero
`start`. -/
def factorGo (start branch : Int) : Int × Nat :=
  factorGoF (branch.natAbs + 1) start branch

/-! ## The orbit data structure (`orbit_key_t`, `orbit_node_t`, `orbit_t`)

An `orbit_key_t` union packs 8 unsigned 8-bit symbols into one `uint64_t`;
`append` writes symbol `p` (within a block) into byte `7 - p`, so earlier
symbols occupy more significant bytes and the packed word compares
lexicographically.  We model a packed key as a `Nat` (value of the
`uint64_t`) with explicit byte extraction and replacement. -/

/-- Byte `idx` (little-endian byte order, as in `c_key[idx]`) of a packed
64-bit key. -/
def getByte (key : Nat) (idx : Nat) : Nat :=
  key / 2 ^ (8 * idx) % 2 ^ 8

/-- Replace byte `idx` of a packed 64-bit key by `v` (reduced mod 2^8, the
C++ `long` → `uint8_t` conversion). -/
def setByte (key : Nat) (idx : Nat) (v : Nat) : Nat :=
  key / 2 ^ (8 * (idx + 1)) * 2 ^ (8 * (idx + 1))
    + v % 2 ^ 8 * 2 ^ (8 * idx)
    + key % 2 ^ (8 * idx)

/-- `orbit_node_t::operator==` (`path.cpp` lines 69–87) over the chain of
packed block keys: a node chain is its key plus the (possibly empty) list of
keys of the linked nodes.  Keys are compared as `uint64_t`; on equality the
recursion continues only while *both* chains have a next node, and reports
equality as soon as either chain ends. -/
def nodeEq : Nat → List Nat → Nat → List Nat → Bool
  | k, ks, k', ks' =>
    if k = k' then
      match ks, ks' with
      | a :: as, b :: bs => nodeEq a as b bs
      | _, _ => true
    else false

/-- `orbit_node_t::operator<` (`path.cpp` lines 100–118): on block equality
recurse while both chains continue, returning `false` when either chain
ends; on the first differing block compare the packed keys. -/
def nodeLt : Nat → List Nat → Nat → List Nat → Bool
  | k, ks, k', ks' =>
    if k = k' then
      match ks, ks' with
      | a :: as, b :: bs => nodeLt a as b bs
      | _, _ => false
    else decide (k < k')

/-- `orbit_node_t::operator>` (`path.cpp` lines 131–149), mirror image of
`nodeLt`. -/
def nodeGt : Nat → List Nat → Nat → List Nat → Bool
  | k, ks, k', ks' =>
    if k = k' then
      match ks, ks' with
      | a :: as, b :: bs => nodeGt a as b bs
      | _, _ => false
    else decide (k > k')

/-- The `orbit_t` linked list (`path.cpp`): a stack-allocated root block, a
chain of heap blocks, the path length and the error mask.  The `curr`
write pointer always designates the last block of the chain. -/
structure Orbit where
  root : Nat
  rest : List Nat
  path_length : Nat
  error_mask : Nat
  deriving Repr, DecidableEq

namespace Orbit

/-- `orbit_t::init()`: zero root key, no linked nodes, zero length. -/
def empty : Orbit := ⟨0, [], 0, 0⟩

/-- Replace the last element of a list (the block `curr` points to). -/
def updateLast (f : Nat → Nat) : List Nat → List Nat
  | [] => []
  | [a] => [f a]
  | a :: b :: bs => a :: updateLast f (b :: bs)

/-- `orbit_t::append` (`path.cpp` lines 242–269): compute the position
within the current block; when the block is full (`pos = 0` with a nonzero
length) link a fresh block; then store the count into byte `7 - pos` of the
current (last) block — the C++ `long` value is truncated to `uint8_t`,
i.e. reduced mod 2^8 — and advance the length.  Allocation always succeeds
in the model, so the allocation-failure branch is not represented. -/
def append (o : Orbit) (divisors : Int) : Orbit :=
  let pos := o.path_length % 8
  let byteVal := (divisors.emod (2 ^ 8)).toNat
  if pos = 0 ∧ 0 < o.path_length then
    { o with rest := o.rest ++ [setByte 0 7 byteVal],
             path_length := o.path_length + 1 }
  else
    match o.rest with
    | [] => { o with root := setByte o.root (7 - pos) byteVal,
                     path_length := o.path_length + 1 }
    | r :: rs => { o with rest := updateLast (fun k => setByte k (7 - pos) byteVal) (r :: rs),
                          path_length := o.path_length + 1 }

/-- Symbol `i` of the orbit, as `orbit_t::path()` reads it back: byte
`7 - (i % 8)` of block `i / 8` (block 0 is the root). -/
def getSym (o : Orbit) (i : Nat) : Nat :=
  getByte ((o.root :: o.rest).getD (i / 8) 0) (7 - i % 8)

/-- The symbol sequence rendered by `orbit_t::path()` (as numbers; the C++
function renders them space-separated in decimal). -/
def render (o : Orbit) : List Nat :=
  (List.range o.path_length).map o.getSym

/-- `orbit_t::path_len()`: the number of downlegs stored. -/
def path_len (o : Orbit) : Nat :=
  o.path_length

/-- `orbit_t::operator==` (`path.cpp` lines 322–325): delegate to the root
node comparison. -/
def beq (o o' : Orbit) : Bool :=
  nodeEq o.root o.rest o'.root o'.rest

/-- `orbit_t::operator<` (`path.cpp` lines 334–337). -/
def blt (o o' : Orbit) : Bool :=
  nodeLt o.root o.rest o'.root o'.rest

/-- `orbit_t::operator>` (`path.cpp` lines 346–349). -/
def bgt (o o' : Orbit) : Bool :=
  nodeGt o.root o.rest o'.root o'.rest

end Orbit

/-! ## The path engine (`t_path<int64_t>`) -/

/-- The member state of a `t_path<int64_t>` object (`path.hpp` lines
233–244).  The `regime` member and the local `current_int` walk variable are
not stored; `current_int` is threaded through the loop explicitly. -/
structure PathState where
  int_sign : Int
  start_int : Int
  max_int : Int
  orb : Orbit
  path_factors : Int
  ec_factors : Int
  next_factors : Int
  ec_len : Int
  error_mask : Nat
  deriving Repr, DecidableEq

/-- `t_path<P>::connection` (`path.cpp` lines 1197–1201): `3·n + 1` in
`int64_t` arithmetic, which wraps on overflow. -/
def connection (terminus : Int) : Int :=
  wrap64 (terminus * 3 + 1)

/-- Result of the `setpath` do-while loop: `out` — the loop exited (either
by convergence or by the overflow break) and control reaches the code after
the loop; `aborted` — the speed-mode factor-budget check executed `return`,
skipping the rest of `setpath`; `fuelOut` — artificial fuel exhaustion of
the model (the source loop has no such case). -/
inductive LoopRes where
  | out (st : PathState) (current : Int)
  | aborted (st : PathState) (current : Int)
  | fuelOut (st : PathState) (current : Int)
  deriving Repr, DecidableEq

/-- The body of the `setpath` do-while loop (`path.cpp` lines 581–622),
parameterized by the starting integer, the sign recorded at entry
(`sign()`), the factor budget and the speed flag.  Each iteration: apply
the connection; on a sign flip set the overflow bit, restore the last valid
value and break; otherwise update the maximum, factor out divisors with the
early-convergence break, add the leg to the path factors, honour the
speed-mode budget `return`, append the leg to the orbit, and continue while
`|current| > |start|`. -/
def setpathLoop (start s max_factors : Int) (speed : Bool) :
    Nat → PathState → Int → LoopRes
  | 0, st, cur => .fuelOut st cur
  | fuel + 1, st, cur =>
    let last := cur
    let conn := connection cur
    if sgn conn ≠ s then
      .out { st with error_mask := st.error_mask ||| 1 } last
    else
      let st1 := if conn > st.max_int then { st with max_int := conn } else st
      let fr := factorGo start conn
      let st2 := { st1 with path_factors := st1.path_factors + (fr.2 : Int) }
      if speed ∧ st2.path_factors > max_factors then
        .aborted st2 fr.1
      else
        let st3 := { st2 with orb := st2.orb.append (fr.2 : Int) }
        if abs64 fr.1 > abs64 start then
          setpathLoop start s max_factors speed fuel st3 fr.1
        else
          .out st3 fr.1

/-- The code after the `setpath` loop (`path.cpp` lines 627–651): the class
factors start at the path factors; when the converged value is nonzero,
strip its residual divisor factors into `ec_factors`, then strip the
divisor factors from the original start, apply one connection and store the
factor count of the result as the next-factor lookahead. -/
def postLoop (start : Int) (st : PathState) (current : Int) : PathState :=
  let st1 := { st with ec_factors := st.path_factors }
  if current ≠ 0 then
    let st2 := { st1 with ec_factors := st1.ec_factors + ((stripAll current).2 : Int) }
    let oddStart := (stripAll start).1
    let nf := (stripAll (connection oddStart)).2
    { st2 with next_factors := (nf : Int) }
  else st1

/-- `t_path<P>::setpath` (`path.cpp` lines 554–651) at `P = int64_t`:
initialise the state from `start`; integers evenly divisible by the divisor
get the single-step orbit `[1]`; otherwise append the leading `0` marker
and run the connection loop; finally run the post-loop class/lookahead
computation (skipped when the speed-mode budget aborted the computation).
`fuel` bounds the number of loop iterations in the model. -/
def setpath (start : Int) (max_factors : Int := 0) (speed : Bool := false)
    (fuel : Nat := 10000) : PathState :=
  let st0 : PathState :=
    { int_sign := sgn start, start_int := start, max_int := start,
      orb := Orbit.empty, path_factors := 0, ec_factors := 0,
      next_factors := 0, ec_len := 0, error_mask := 0 }
  if start.tmod 2 = 0 then
    let st := { st0 with orb := st0.orb.append 1, path_factors := st0.path_factors + 1 }
    postLoop start st start
  else
    let st := { st0 with orb := st0.orb.append 0 }
    match setpathLoop start (sgn start) max_factors speed fuel st start with
    | .out st' cur => postLoop start st' cur
    | .aborted st' _ => st'
    | .fuelOut st' _ => st'

/-- `to_str` for `int64_t` (`path.cpp` lines 1440–1443): the decimal string
of the integer, as `std::to_string` renders it. -/
def to_str (remainder : Int) : String :=
  (if remainder < 0 then "-" else "") ++ Nat.repr remainder.natAbs

/-- The digit-emission loop of `t_path<P>::flow` (`path.cpp` lines
715–727): emit `to_str(abs(remainder))`, then divide the factor seed by the
divisor and take the next remainder mod the divisor. -/
def flowLoop : Nat → Int → Int → String
  | 0, _, _ => ""
  | n + 1, factors, remainder =>
    to_str (abs64 remainder)
      ++ flowLoop n (factors.tdiv 2) ((factors.tdiv 2).tmod 2)

/-- `t_path<P>::flow` (`path.cpp` lines 684–730): negative digit counts
fall back to the stored class length (and are clamped to 0); a sign
character is prepended iff the digit count is nonzero and the stored sign
is nonzero; then the digit loop runs on the seeds
`factors = start / M` and `remainder = start mod (D·M)`. -/
def flow (st : PathState) (digits0 : Int) : String :=
  let digits1 := if digits0 < 0 then st.ec_len else digits0
  let factors := st.start_int.tdiv 3
  let remainder := st.start_int.tmod 6
  let digits := if digits1 < 0 then 0 else digits1
  let sgnStr : String :=
    if digits ≠ 0 ∧ st.int_sign ≠ 0 then
      if st.int_sign > 0 then "+" else "-"
    else ""
  sgnStr ++ flowLoop digits.toNat factors remainder

/-- `t_path<P>::is_signed` (`path.cpp` lines 1392–1397): the first
character is '+' or '-'.  (On the empty string the C++ `input[0]` reads the
guaranteed terminating null character.) -/
def is_signed (input : List Char) : Bool :=
  match input with
  | [] => false
  | c :: _ => c = '+' || c = '-'

/-- The digit loop of `t_path<P>::parse` (`path.cpp` lines 1249–1276),
carrying the accumulated value, the (wrapping) position multiplier and the
sticky rollover flag.  Each iteration first records whether doubling the
multiplier would overflow, then consumes one character: a '1' adds the
multiplier (or yields the zero error result when the rollover flag is
set), a '0' adds nothing, anything else is an error; finally the
multiplier is doubled. -/
def parseLoop : Int → Int → Bool → List Char → Int
  | lcl, _, _, [] => lcl
  | lcl, mult, rollover, c :: cs =>
    let ro := rollover || decide (abs64 (wrap64 (mult * 2)) < mult)
    if c = '1' then
      if ro then 0
      else parseLoop (wrap64 (lcl + mult)) (wrap64 (mult * 2)) ro cs
    else if c = '0' then
      parseLoop lcl (wrap64 (mult * 2)) ro cs
    else 0

/-- The sign-independent part of `t_path<P>::parse`: check the first
symbol is in '0'..'5', seed the accumulator with its value and the
multiplier with `M·D = 6`, run the digit loop and apply the parsed sign. -/
def parseCore (eq_sign : Int) (d : Char) (ds : List Char) : Int :=
  if d < '0' ∨ d > '5' then 0
  else wrap64 (parseLoop ((d.toNat : Int) - 48) 6 false ds * eq_sign)

/-- `t_path<P>::parse` (`path.cpp` lines 1212–1280) at `P = int64_t`: an
optional leading '+' or '-' sets the sign (consuming one position), the
rest is handled by `parseCore`.  When the string is empty, or consists of
a sign alone, the C++ indexing reads the terminating null character, which
fails the '0'..'5' range check and yields 0. -/
def parse (input : List Char) : Int :=
  match input with
  | [] => 0
  | c :: cs =>
    if c = '+' ∨ c = '-' then
      match cs with
      | [] => 0
      | d :: ds => parseCore (if c = '-' then -1 else 1) d ds
    else parseCore 1 c cs

/-- The probe loop of `t_path<P>::ancestry` (`path.cpp` lines 761–779):
each probe computes `p = (scale·start·D − A) / M`, applies the forward
connection and strips divisor factors; if the result reproduces `start`
the probe value is the parent, otherwise the scale is incremented and the
search continues.  `fuel` bounds the unbounded C++ `while (true)` loop;
`none` is the model's fuel-exhaustion artifact. -/
def ancestryLoop (start : Int) : Int → Nat → Option (Int × Int)
  | _, 0 => none
  | scale, fuel + 1 =>
    let parent := (wrap64 (wrap64 (wrap64 (scale * start)) * 2 - 1)).tdiv 3
    let child := (stripAll (connection parent)).1
    if start = child then some (parent, scale)
    else ancestryLoop start (scale + 1) fuel

/-- `t_path<P>::ancestry` (`path.cpp` lines 744–783): integers evenly
divisible by the divisor or by the multiplier return 0 immediately (the
checks are written `start == (start / c) * c` with truncating division);
all other integers enter the probe loop.  Returns the parent together with
the final scale value (the C++ `scale` reference parameter). -/
def ancestry (start : Int) (scale : Int) (fuel : Nat) : Option (Int × Int) :=
  if (start.tdiv 2) * 2 = start then some (0, scale)
  else if (start.tdiv 3) * 3 = start then some (0, scale)
  else ancestryLoop start scale fuel

/-- `t_path<P>::operator==` (`path.cpp` lines 997–1007): unequal orbit
path lengths compare unequal at once; otherwise delegate to the orbit
comparison. -/
def pathEqOp (a b : PathState) : Bool :=
  if a.orb.path_len ≠ b.orb.path_len then false
  else a.orb.beq b.orb

/-- `t_path<P>::operator!=` (`path.cpp` lines 1017–1021): the negation of
the orbit comparison alone — no path-length check. -/
def pathNeOp (a b : PathState) : Bool :=
  !(a.orb.beq b.orb)

/-! ## The frequency tree (`btree.cpp`, `btree.hpp`)

The `btree` class keyed by `long` (the `t_btree<K>` template in `btree.hpp`
repeats the same code generically).  A `node` holds a key, an occurrence
count and two child pointers; the `btree` object holds the root pointer and
a running node count. -/

/-- The linked node graph of a `btree`: empty pointer or a `node` with key,
count and subtrees. -/
inductive BNode where
  | nil
  | node (left : BNode) (key : Int) (count : Int) (right : BNode)
  deriving Repr, DecidableEq

namespace BNode

/-- The protected `btree::insert(key, leaf)` (`btree.cpp` lines 179–220):
an equal key increments the count; a greater key descends right, inserting
a fresh count-1 node at a null pointer; a smaller key descends left
likewise.  The boolean reports whether a new node was allocated (the C++
code increments the tree's `node_count` at the allocation sites).  The
`nil` case is unreachable from the public `insert`, which handles the empty
root separately; it is given the allocation behaviour. -/
def insertNode (key : Int) : BNode → BNode × Bool
  | nil => (node nil key 1 nil, true)
  | node l k c r =>
    if key = k then (node l k (c + 1) r, false)
    else if key > k then
      if r = nil then (node l k c (node nil key 1 nil), true)
      else
        let p := insertNode key r
        (node l k c p.1, p.2)
    else
      if l = nil then (node (node nil key 1 nil) k c r, true)
      else
        let p := insertNode key l
        (node p.1 k c r, p.2)

/-- The protected `btree::search(key, leaf)` (`btree.cpp` lines 228–249),
returning the found node's count, with the public wrapper's 0 for a miss
folded in. -/
def searchNode (key : Int) : BNode → Int
  | nil => 0
  | node l k c r =>
    if key = k then c
    else if key < k then searchNode key l
    else searchNode key r

/-- `btree::traverse` (`btree.cpp` lines 259–289) with the visitor
modelled as a state transformer `f : key → count → σ → σ` (the C++ callback
may have arbitrary side effects but returns nothing, so it cannot touch the
sum).  In-order when `forward`, reverse-in-order otherwise; the visitor is
invoked between the two subtree traversals and the node's count is added to
the running sum.  Returns the final sum and the final visitor state. -/
def traverseNode {σ : Type} (f : Int → Int → σ → σ) (forward : Bool) :
    BNode → Int → σ → Int × σ
  | nil, sum, s => (sum, s)
  | node l k c r, sum, s =>
    if forward then
      let p1 := traverseNode f forward l sum s
      let s2 := f k c p1.2
      traverseNode f forward r (p1.1 + c) s2
    else
      let p1 := traverseNode f forward r sum s
      let s2 := f k c p1.2
      traverseNode f forward l (p1.1 + c) s2

/-- Number of allocated nodes in the graph (the quantity `node_count`
tracks). -/
def size : BNode → Nat
  | nil => 0
  | node l _ _ r => size l + size r + 1

/-- Total of all occurrence counts in the graph. -/
def total : BNode → Int
  | nil => 0
  | node l _ c r => total l + c + total r

/-- The keys of the graph, in-order. -/
def keys : BNode → List Int
  | nil => []
  | node l k _ r => keys l ++ k :: keys r

end BNode

/-- The `btree` object: root pointer plus the maintained node count
(`btree.hpp`). -/
structure Btree where
  root : BNode
  node_count : Int
  deriving Repr, DecidableEq

namespace Btree

/-- `btree::btree()` / `zeroize()`: null root, node count 0. -/
def empty : Btree := ⟨.nil, 0⟩

/-- The public `btree::insert(key)` (`btree.cpp` lines 62–77): an empty
tree gets a fresh root with count 1 and node count 1; otherwise the
recursive insert runs and `node_count` grows by one exactly when a node was
allocated. -/
def insert (t : Btree) (key : Int) : Btree :=
  match t.root with
  | .nil => ⟨.node .nil key 1 .nil, 1⟩
  | .node l k c r =>
    let p := BNode.insertNode key (.node l k c r)
    ⟨p.1, t.node_count + (if p.2 then 1 else 0)⟩

/-- The public `btree::search(key)` (`btree.cpp` lines 85–96). -/
def search (t : Btree) (key : Int) : Int :=
  BNode.searchNode key t.root

/-- `btree::constForwardIterator` (`btree.cpp` lines 104–109): start the
traversal at the root with a zero sum. -/
def constForwardIterator {σ : Type} (t : Btree) (f : Int → Int → σ → σ) (s : σ) :
    Int × σ :=
  BNode.traverseNode f true t.root 0 s

/-- `btree::constReverseIterator` (`btree.cpp` lines 117–122). -/
def constReverseIterator {σ : Type} (t : Btree) (f : Int → Int → σ → σ) (s : σ) :
    Int × σ :=
  BNode.traverseNode f false t.root 0 s

/-- `btree::nodes()` (`btree.cpp` lines 153–156). -/
def nodes (t : Btree) : Int :=
  t.node_count

/-- Insert every key of a list in order, starting from a given tree. -/
def insertList (t : Btree) (ks : List Int) : Btree :=
  ks.foldl insert t

end Btree

/-! ## Shared helper lemmas -/

/-- `postLoop` only writes the class-factor and lookahead fields: the orbit
is untouched. -/
theorem postLoop_orb (start : Int) (st : PathState) (c : Int) :
    (postLoop start st c).orb = st.orb := by
  unfold postLoop
  split <;> rfl

/-- `postLoop` leaves the path-factor total unchanged. -/
theorem postLoop_path_factors (start : Int) (st : PathState) (c : Int) :
    (postLoop start st c).path_factors = st.path_factors := by
  unfold postLoop
  split <;> rfl

/-- Block-chain equality ignores a longer right chain sharing the compared
blocks. -/
theorem nodeEq_ext_right (k : Nat) (xs ext : List Nat) :
    nodeEq k xs k (xs ++ ext) = true := by
  induction xs generalizing k with
  | nil => cases ext <;> simp [nodeEq]
  | cons a as ih => simpa [nodeEq] using ih a

/-- Block-chain equality ignores a longer left chain sharing the compared
blocks. -/
theorem nodeEq_ext_left (k : Nat) (xs ext : List Nat) :
    nodeEq k (xs ++ ext) k xs = true := by
  induction xs generalizing k with
  | nil => cases ext <;> simp [nodeEq]
  | cons a as ih => simpa [nodeEq] using ih a

/-- Block-chain less-than returns `false` when the right chain extends the
left one with every compared block equal. -/
theorem nodeLt_ext_right (k : Nat) (xs ext : List Nat) :
    nodeLt k xs k (xs ++ ext) = false := by
  induction xs generalizing k with
  | nil => cases ext <;> simp [nodeLt]
  | cons a as ih => simpa [nodeLt] using ih a

/-- Block-chain less-than returns `false` when the left chain extends the
right one with every compared block equal. -/
theorem nodeLt_ext_left (k : Nat) (xs ext : List Nat) :
    nodeLt k (xs ++ ext) k xs = false := by
  induction xs generalizing k with
  | nil => cases ext <;> simp [nodeLt]
  | cons a as ih => simpa [nodeLt] using ih a

/-- Block-chain greater-than returns `false` when the right chain extends
the left one with every compared block equal. -/
theorem nodeGt_ext_right (k : Nat) (xs ext : List Nat) :
    nodeGt k xs k (xs ++ ext) = false := by
  induction xs generalizing k with
  | nil => cases ext <;> simp [nodeGt]
  | cons a as ih => simpa [nodeGt] using ih a

/-- Block-chain greater-than returns `false` when the left chain extends
the right one with every compared block equal. -/
theorem nodeGt_ext_left (k : Nat) (xs ext : List Nat) :
    nodeGt k (xs ++ ext) k xs = false := by
  induction xs generalizing k with
  | nil => cases ext <;> simp [nodeGt]
  | cons a as ih => simpa [nodeGt] using ih a

/-! ## The claims -/

/-- C1, counterexample: the claim asserts that for start 5 the downleg
removes 4 factors of two (16→8→4→2→1) and the orbit is `[0, 4]` with
path-factor total 4.  In the code, `factor` stops as soon as the running
value drops below the start: 16→8→4 stops at 4 < 5, so the leg is 2, the
orbit is `[0, 2]` and the path-factor total is 2. -/
theorem c1_counterexample :
    (setpath 5).orb.render ≠ [0, 4] ∧
    (setpath 5).path_factors ≠ 4 ∧
    factorGo 5 16 ≠ (1, 4) ∧
    (setpath 5).orb.render = [0, 2] := by
  decide

/-- C1, amended: for start 5, `connection 5 = 16`; `factor` removes `leg =
2` factors of two from 16 (16→8→4, stopping early once 4 < 5), yielding
orbit `[0, 2]`, path length 2 and path-factor total 2; the remaining
factors (4→2→1) are accounted to the class-factor total, which is 4. -/
theorem c1_amended_path_of_five :
    connection 5 = 16 ∧
    factorGo 5 16 = (4, 2) ∧
    (setpath 5).orb.render = [0, 2] ∧
    (setpath 5).orb.path_len = 2 ∧
    (setpath 5).path_factors = 2 ∧
    (setpath 5).ec_factors = 4 := by
  decide

/-- C2: whenever one orbit's block chain ends while every block compared so
far is equal (the shorter chain's blocks extend to the longer one's), the
orbit equality comparison returns `true` and both the less-than and the
greater-than comparisons return `false` — the shorter orbit is not ordered
as smaller. -/
theorem c2_block_chain_end_compares_equal (o o' : Orbit) (ext : List Nat)
    (hroot : o'.root = o.root) (hrest : o'.rest = o.rest ++ ext) :
    o.beq o' = true ∧ o'.beq o = true ∧
    o.blt o' = false ∧ o'.blt o = false ∧
    o.bgt o' = false ∧ o'.bgt o = false := by
  unfold Orbit.beq Orbit.blt Orbit.bgt
  rw [hroot, hrest]
  exact ⟨nodeEq_ext_right _ _ _, nodeEq_ext_left _ _ _,
    nodeLt_ext_right _ _ _, nodeLt_ext_left _ _ _,
    nodeGt_ext_right _ _ _, nodeGt_ext_left _ _ _⟩

/-- C2 witness: a one-block orbit against a two-block extension of it. -/
theorem c2_witness :
    (⟨5, [7], 10, 0⟩ : Orbit).beq ⟨5, [7, 9], 17, 0⟩ = true ∧
    (⟨5, [7, 9], 17, 0⟩ : Orbit).beq ⟨5, [7], 10, 0⟩ = true ∧
    (⟨5, [7], 10, 0⟩ : Orbit).blt ⟨5, [7, 9], 17, 0⟩ = false ∧
    (⟨5, [7, 9], 17, 0⟩ : Orbit).blt ⟨5, [7], 10, 0⟩ = false ∧
    (⟨5, [7], 10, 0⟩ : Orbit).bgt ⟨5, [7, 9], 17, 0⟩ = false ∧
    (⟨5, [7, 9], 17, 0⟩ : Orbit).bgt ⟨5, [7], 10, 0⟩ = false :=
  c2_block_chain_end_compares_equal ⟨5, [7], 10, 0⟩ ⟨5, [7, 9], 17, 0⟩ [9]
    rfl rfl

/-- C3: for every starting integer evenly divisible by the divisor 2,
`setpath` produces the single-element orbit `[1]`, path length 1 and
path-factor total 1 — for any factor budget, speed setting and fuel. -/
theorem c3_even_single_step (n max_factors : Int) (speed : Bool) (fuel : Nat)
    (h : n.tmod 2 = 0) :
    (setpath n max_factors speed fuel).orb.render = [1] ∧
    (setpath n max_factors speed fuel).orb.path_len = 1 ∧
    (setpath n max_factors speed fuel).path_factors = 1 := by
  unfold setpath
  rw [if_pos h]
  rw [postLoop_orb, postLoop_path_factors]
  refine ⟨?_, ?_, ?_⟩
  · show (Orbit.empty.append 1).render = [1]
    rfl
  · show (Orbit.empty.append 1).path_len = 1
    rfl
  · show (0 : Int) + 1 = 1
    rfl

/-- C3 witness at the even integer 6. -/
theorem c3_witness :
    (6 : Int).tmod 2 = 0 ∧
    ((setpath 6).orb.render = [1] ∧
     (setpath 6).orb.path_len = 1 ∧
     (setpath 6).path_factors = 1) :=
  ⟨by decide, c3_even_single_step 6 0 false 10000 (by decide)⟩

/-- C5: during the compute-path loop, whenever the sign of the connection
value differs from the sign of the current value (which agrees with the
recorded start sign `s` along every non-overflowed execution), the loop
sets the overflow bit in the error mask, keeps the last valid value as the
current value, and exits the loop, leaving the orbit and all accumulated
statistics in the state untouched (control then reaches the post-loop code
rather than aborting). -/
theorem c5_overflow_flag_and_stop (start max_factors s : Int) (speed : Bool)
    (fuel : Nat) (st : PathState) (cur : Int)
    (hsign : sgn cur = s) (hflip : sgn (connection cur) ≠ sgn cur) :
    setpathLoop start s max_factors speed (fuel + 1) st cur =
      .out { st with error_mask := st.error_mask ||| 1 } cur := by
  unfold setpathLoop
  rw [if_pos (hsign ▸ hflip)]

/-- C5 witness: the first connection of `2^62 + 1` wraps negative. -/
theorem c5_witness :
    sgn (4611686018427387905 : Int) = 1 ∧
    sgn (connection 4611686018427387905) ≠ sgn (4611686018427387905 : Int) ∧
    setpathLoop 4611686018427387905 1 0 false 3
        { int_sign := 1, start_int := 4611686018427387905,
          max_int := 4611686018427387905, orb := Orbit.empty.append 0,
          path_factors := 0, ec_factors := 0, next_factors := 0,
          ec_len := 0, error_mask := 0 } 4611686018427387905 =
      .out { int_sign := 1, start_int := 4611686018427387905,
             max_int := 4611686018427387905, orb := Orbit.empty.append 0,
             path_factors := 0, ec_factors := 0, next_factors := 0,
             ec_len := 0, error_mask := 0 ||| 1 } 4611686018427387905 :=
  ⟨by decide, by decide,
    c5_overflow_flag_and_stop 4611686018427387905 0 1 false 2 _ _
      (by decide) (by decide)⟩

/-- C7: for every starting integer divisible by the divisor 2 or by the
multiplier 3, `ancestry` returns the no-ancestor result 0 at once with the
scale unchanged — for every fuel value, including fuel 0, so no candidate
parent is probed (each probe consumes one unit of fuel). -/
theorem c7_divisible_no_ancestor (start scale : Int) (fuel : Nat)
    (h : 2 ∣ start ∨ 3 ∣ start) :
    ancestry start scale fuel = some (0, scale) := by
  unfold ancestry
  rcases h with h | h
  · rw [if_pos (Int.tdiv_mul_cancel h)]
  · by_cases h2 : start.tdiv 2 * 2 = start
    · rw [if_pos h2]
    · rw [if_neg h2, if_pos (Int.tdiv_mul_cancel h)]

/-- C7 witness: `ancestry 3` returns no parent immediately (fuel 0: not a
single probe), since 3 is divisible by the multiplier 3. -/
theorem c7_witness :
    ((2 : Int) ∣ 3 ∨ (3 : Int) ∣ 3) ∧ ancestry 3 1 0 = some (0, 1) :=
  ⟨Or.inr ⟨1, rfl⟩, c7_divisible_no_ancestor 3 1 0 (Or.inr ⟨1, rfl⟩)⟩

/-- C8: `flow 0` returns the empty string for every path object: with zero
requested digits the digit loop never runs and the sign prefix is guarded
by a nonzero digit count. -/
theorem c8_flow_zero_empty (st : PathState) : flow st 0 = "" := by
  simp [flow, flowLoop]

/-- C9: path equality requires equal orbit path lengths and then compares
the orbits, while path inequality only negates the orbit comparison with
no length check; hence two paths of different path lengths whose orbit
block chains compare equal satisfy neither `==` nor `!=`, so `!=` is not
the negation of `==`. -/
theorem c9_eq_ne_mismatch :
    (∀ a b : PathState,
      pathEqOp a b = true ↔
        a.orb.path_len = b.orb.path_len ∧ a.orb.beq b.orb = true) ∧
    (∀ a b : PathState, pathNeOp a b = true ↔ a.orb.beq b.orb = false) ∧
    (∀ a b : PathState, a.orb.path_len ≠ b.orb.path_len →
      a.orb.beq b.orb = true →
      pathEqOp a b = false ∧ pathNeOp a b = false ∧
        pathNeOp a b ≠ !(pathEqOp a b)) := by
  refine ⟨?_, ?_, ?_⟩
  · intro a b
    unfold pathEqOp
    by_cases h : a.orb.path_len = b.orb.path_len <;> simp [h]
  · intro a b
    unfold pathNeOp
    simp
  · intro a b hlen hbeq
    unfold pathEqOp pathNeOp
    rw [if_pos hlen, hbeq]
    exact ⟨rfl, rfl, by decide⟩

/-- C9 witness: two concrete path states, lengths 1 and 9, block chains
comparing equal: `==` and `!=` both report `false`. -/
theorem c9_witness :
    pathEqOp
        { int_sign := 1, start_int := 0, max_int := 0,
          orb := ⟨5, [], 1, 0⟩, path_factors := 0, ec_factors := 0,
          next_factors := 0, ec_len := 0, error_mask := 0 }
        { int_sign := 1, start_int := 0, max_int := 0,
          orb := ⟨5, [9], 9, 0⟩, path_factors := 0, ec_factors := 0,
          next_factors := 0, ec_len := 0, error_mask := 0 } = false ∧
    pathNeOp
        { int_sign := 1, start_int := 0, max_int := 0,
          orb := ⟨5, [], 1, 0⟩, path_factors := 0, ec_factors := 0,
          next_factors := 0, ec_len := 0, error_mask := 0 }
        { int_sign := 1, start_int := 0, max_int := 0,
          orb := ⟨5, [9], 9, 0⟩, path_factors := 0, ec_factors := 0,
          next_factors := 0, ec_len := 0, error_mask := 0 } = false := by
  have h := c9_eq_ne_mismatch.2.2
      { int_sign := 1, start_int := 0, max_int := 0,
        orb := ⟨5, [], 1, 0⟩, path_factors := 0, ec_factors := 0,
        next_factors := 0, ec_len := 0, error_mask := 0 }
      { int_sign := 1, start_int := 0, max_int := 0,
        orb := ⟨5, [9], 9, 0⟩, path_factors := 0, ec_factors := 0,
        next_factors := 0, ec_len := 0, error_mask := 0 }
      (by decide) (by decide)
  exact ⟨h.1, h.2.1⟩


/-- Reading back the byte just written by `setByte`. -/
theorem getByte_setByte (key idx v : Nat) :
    getByte (setByte key idx v) idx = v % 2 ^ 8 := by
  unfold getByte setByte
  have hd : 0 < 2 ^ (8 * idx) := Nat.pos_pow_of_pos _ (by omega)
  have hsplit : 2 ^ (8 * (idx + 1)) = 2 ^ (8 * idx) * 2 ^ 8 := by
    rw [Nat.mul_add, Nat.mul_one, pow_add]
  rw [hsplit]
  have h1 : key / (2 ^ (8 * idx) * 2 ^ 8) * (2 ^ (8 * idx) * 2 ^ 8)
        + v % 2 ^ 8 * 2 ^ (8 * idx) + key % 2 ^ (8 * idx)
      = 2 ^ (8 * idx) * (2 ^ 8 * (key / (2 ^ (8 * idx) * 2 ^ 8)) + v % 2 ^ 8)
        + key % 2 ^ (8 * idx) := by ring
  rw [h1, Nat.mul_add_div hd, Nat.div_eq_of_lt (Nat.mod_lt _ hd), Nat.add_zero,
    Nat.mul_add_mod]
  exact Nat.mod_mod_of_dvd _ dvd_rfl

/-- `updateLast` rewrites only the final list element. -/
theorem updateLast_eq (f : Nat → Nat) (l : List Nat) (hl : l ≠ []) :
    Orbit.updateLast f l = l.dropLast ++ [f (l.getLast hl)] := by
  induction l with
  | nil => exact absurd rfl hl
  | cons a t ih =>
    cases t with
    | nil => simp [Orbit.updateLast]
    | cons b bs =>
      rw [List.dropLast_cons_of_ne_nil (by simp), List.getLast_cons (by simp)]
      simpa [Orbit.updateLast] using ih (by simp)

/-- The structural invariant of a well-formed orbit: the chain holds
exactly the blocks the path length requires (one root block even when
empty). -/
def OrbitWF (o : Orbit) : Prop :=
  1 + o.rest.length = max 1 ((o.path_length + 7) / 8)

/-- C10: the orbit append stores each factor count into an 8-bit cell, so
for every appended count `c` the symbol read back from the new position is
`c mod 2^8` (the C++ `long` → `uint8_t` conversion), not the unbounded
count; the path length advances by one. -/
theorem c10_append_mod_256 (o : Orbit) (c : Int) (hwf : OrbitWF o) :
    (o.append c).getSym o.path_length = (c.emod (2 ^ 8)).toNat ∧
    (o.append c).path_len = o.path_len + 1 := by
  have hvlt : (c.emod (2 ^ 8)).toNat < 2 ^ 8 := by
    have h1 : 0 ≤ c.emod (2 ^ 8) := Int.emod_nonneg c (by norm_num)
    have h2 : c.emod (2 ^ 8) < 2 ^ 8 := Int.emod_lt_of_pos c (by norm_num)
    omega
  set v := (c.emod (2 ^ 8)).toNat with hv
  unfold Orbit.append Orbit.getSym Orbit.path_len
  unfold OrbitWF at hwf
  by_cases hc : o.path_length % 8 = 0 ∧ 0 < o.path_length
  · rw [if_pos hc]
    obtain ⟨hpos, hlen⟩ := hc
    have hq : o.path_length / 8 = o.rest.length + 1 := by omega
    refine ⟨?_, rfl⟩
    show getByte ((o.root :: (o.rest ++ [setByte 0 7 v])).getD (o.path_length / 8) 0)
        (7 - o.path_length % 8) = v
    have hlist : (o.root :: (o.rest ++ [setByte 0 7 v])) =
        (o.root :: o.rest) ++ [setByte 0 7 v] := by simp
    rw [hlist, hq, hpos]
    have hgd : ((o.root :: o.rest) ++ [setByte 0 7 v]).getD (o.rest.length + 1) 0
        = setByte 0 7 v := by
      have hlen2 : (o.root :: o.rest).length = o.rest.length + 1 := by simp
      rw [← hlen2]
      simp [List.getD]
    rw [hgd, getByte_setByte]
    exact Nat.mod_eq_of_lt hvlt
  · rw [if_neg hc]
    rcases hr : o.rest with _ | ⟨r, rs⟩
    · rw [hr] at hwf
      have hlt : o.path_length < 8 := by
        simp at hwf
        omega
      have hq0 : o.path_length / 8 = 0 := Nat.div_eq_of_lt hlt
      refine ⟨?_, rfl⟩
      show getByte ((setByte o.root (7 - o.path_length % 8) v :: ([] : List Nat)).getD
          (o.path_length / 8) 0) (7 - o.path_length % 8) = v
      rw [hq0]
      show getByte (setByte o.root (7 - o.path_length % 8) v)
          (7 - o.path_length % 8) = v
      rw [getByte_setByte]
      exact Nat.mod_eq_of_lt hvlt
    · rw [hr] at hwf
      have hlen9 : 8 ≤ o.path_length := by
        by_cases h8 : 8 ≤ o.path_length
        · exact h8
        · exfalso
          simp at hwf
          omega
      have hposne : o.path_length % 8 ≠ 0 := by
        intro h0
        exact hc ⟨h0, by omega⟩
      have hq : o.path_length / 8 = rs.length + 1 := by
        simp at hwf
        omega
      refine ⟨?_, rfl⟩
      show getByte ((o.root :: Orbit.updateLast
            (fun k => setByte k (7 - o.path_length % 8) v) (r :: rs)).getD
          (o.path_length / 8) 0) (7 - o.path_length % 8) = v
      rw [updateLast_eq _ _ (by simp)]
      have hsplit2 : o.root :: ((r :: rs).dropLast ++
          [(fun k => setByte k (7 - o.path_length % 8) v) ((r :: rs).getLast (by simp))])
          = (o.root :: (r :: rs).dropLast) ++
            [setByte ((r :: rs).getLast (by simp)) (7 - o.path_length % 8) v] := by
        simp
      rw [hsplit2, hq]
      have hdl : (o.root :: (r :: rs).dropLast).length = rs.length + 1 := by
        simp
      have hgd : ((o.root :: (r :: rs).dropLast) ++
          [setByte ((r :: rs).getLast (by simp)) (7 - o.path_length % 8) v]).getD
            (rs.length + 1) 0
          = setByte ((r :: rs).getLast (by simp)) (7 - o.path_length % 8) v := by
        rw [← hdl]
        simp [List.getD]
      rw [hgd, getByte_setByte]
      exact Nat.mod_eq_of_lt hvlt

/-- C10 witness: appending 260 to the empty orbit stores 4 = 260 mod 256. -/
theorem c10_witness :
    OrbitWF Orbit.empty ∧
    ((Orbit.empty.append 260).getSym 0 = ((260 : Int).emod (2 ^ 8)).toNat ∧
     (Orbit.empty.append 260).path_len = Orbit.empty.path_len + 1) :=
  ⟨rfl, c10_append_mod_256 Orbit.empty 260 rfl⟩


/-! ### C4 development: search-path membership and ordering of the tree -/

/-- Search-path membership, mirroring the comparisons of `btree::insert`:
an equal key is found, a greater key is looked up on the right, any other
key on the left. -/
def memB (key : Int) : BNode → Bool
  | .nil => false
  | .node l k _ r =>
    if key = k then true
    else if key > k then memB key r
    else memB key l

/-- The in-order traversal sums the counts of all nodes on top of the
accumulator, for either direction and any visitor. -/
theorem traverseNode_fst {σ : Type} (f : Int → Int → σ → σ) (fwd : Bool)
    (t : BNode) (sum : Int) (s : σ) :
    (BNode.traverseNode f fwd t sum s).1 = sum + t.total := by
  induction t generalizing sum s with
  | nil => simp [BNode.traverseNode, BNode.total]
  | node l k c r ihl ihr =>
    cases fwd with
    | true => simp [BNode.traverseNode, BNode.total, ihl, ihr]; ring
    | false => simp [BNode.traverseNode, BNode.total, ihl, ihr]; ring

/-- Each recursive insert raises the grand count total by exactly one. -/
theorem total_insertNode (key : Int) (t : BNode) :
    (BNode.insertNode key t).1.total = t.total + 1 := by
  induction t with
  | nil => simp [BNode.insertNode, BNode.total]
  | node l k c r ihl ihr =>
    simp only [BNode.insertNode]
    by_cases hk : key = k
    · rw [if_pos hk]; simp only [BNode.total]; omega
    · rw [if_neg hk]
      by_cases hgt : key > k
      · rw [if_pos hgt]
        by_cases hr : r = BNode.nil
        · rw [if_pos hr]; subst hr; simp only [BNode.total]; omega
        · rw [if_neg hr]; simp only [BNode.total]; rw [ihr]; omega
      · rw [if_neg hgt]
        by_cases hl : l = BNode.nil
        · rw [if_pos hl]; subst hl; simp only [BNode.total]; omega
        · rw [if_neg hl]; simp only [BNode.total]; rw [ihl]; omega

/-- The allocation flag of the recursive insert is the negation of
search-path membership. -/
theorem snd_insertNode (key : Int) (t : BNode) :
    (BNode.insertNode key t).2 = !(memB key t) := by
  induction t with
  | nil => simp [BNode.insertNode, memB]
  | node l k c r ihl ihr =>
    simp only [BNode.insertNode, memB]
    by_cases hk : key = k
    · rw [if_pos hk, if_pos hk]; rfl
    · rw [if_neg hk, if_neg hk]
      by_cases hgt : key > k
      · rw [if_pos hgt, if_pos hgt]
        by_cases hr : r = BNode.nil
        · rw [if_pos hr]; subst hr; simp [memB]
        · rw [if_neg hr]; exact ihr
      · rw [if_neg hgt, if_neg hgt]
        by_cases hl : l = BNode.nil
        · rw [if_pos hl]; subst hl; simp [memB]
        · rw [if_neg hl]; exact ihl

/-- A found key leaves the node count unchanged. -/
theorem size_insertNode_mem (key : Int) (t : BNode) (h : memB key t = true) :
    (BNode.insertNode key t).1.size = t.size := by
  induction t with
  | nil => simp [memB] at h
  | node l k c r ihl ihr =>
    simp only [BNode.insertNode]
    by_cases hk : key = k
    · rw [if_pos hk]; simp only [BNode.size]
    · rw [if_neg hk]
      simp only [memB, if_neg hk] at h
      by_cases hgt : key > k
      · rw [if_pos hgt]
        rw [if_pos hgt] at h
        have hr : r ≠ BNode.nil := by
          intro hnil; subst hnil; simp [memB] at h
        rw [if_neg hr]
        simp only [BNode.size]
        rw [ihr h]
      · rw [if_neg hgt]
        rw [if_neg hgt] at h
        have hl : l ≠ BNode.nil := by
          intro hnil; subst hnil; simp [memB] at h
        rw [if_neg hl]
        simp only [BNode.size]
        rw [ihl h]

/-- A missed key allocates exactly one fresh node. -/
theorem size_insertNode_not_mem (key : Int) (t : BNode) (h : memB key t = false) :
    (BNode.insertNode key t).1.size = t.size + 1 := by
  induction t with
  | nil => simp [BNode.insertNode, BNode.size]
  | node l k c r ihl ihr =>
    simp only [BNode.insertNode]
    by_cases hk : key = k
    · simp [memB, hk] at h
    · rw [if_neg hk]
      simp only [memB, if_neg hk] at h
      by_cases hgt : key > k
      · rw [if_pos hgt]
        rw [if_pos hgt] at h
        by_cases hr : r = BNode.nil
        · rw [if_pos hr]; subst hr; simp only [BNode.size]
        · rw [if_neg hr]; simp only [BNode.size]; rw [ihr h]; omega
      · rw [if_neg hgt]
        rw [if_neg hgt] at h
        by_cases hl : l = BNode.nil
        · rw [if_pos hl]; subst hl; simp only [BNode.size]; omega
        · rw [if_neg hl]; simp only [BNode.size]; rw [ihl h]; omega

/-- The keys after a recursive insert are the inserted key plus the old
keys. -/
theorem mem_keys_insertNode (key j : Int) (t : BNode) :
    j ∈ (BNode.insertNode key t).1.keys ↔ j = key ∨ j ∈ t.keys := by
  induction t with
  | nil => simp [BNode.insertNode, BNode.keys]
  | node l k c r ihl ihr =>
    simp only [BNode.insertNode]
    by_cases hk : key = k
    · rw [if_pos hk]
      subst hk
      simp only [BNode.keys, List.mem_append, List.mem_cons]
      tauto
    · rw [if_neg hk]
      by_cases hgt : key > k
      · rw [if_pos hgt]
        by_cases hr : r = BNode.nil
        · rw [if_pos hr]; subst hr
          simp only [BNode.keys, List.mem_append, List.mem_cons,
            List.not_mem_nil, List.nil_append]
          tauto
        · rw [if_neg hr]
          simp only [BNode.keys, List.mem_append, List.mem_cons] at ihr ⊢
          tauto
      · rw [if_neg hgt]
        by_cases hl : l = BNode.nil
        · rw [if_pos hl]; subst hl
          simp only [BNode.keys, List.mem_append, List.mem_cons,
            List.not_mem_nil, List.nil_append]
          tauto
        · rw [if_neg hl]
          simp only [BNode.keys, List.mem_append, List.mem_cons] at ihl ⊢
          tauto


/-- The binary-search ordering invariant: every key in the left subtree is
smaller, every key in the right subtree larger. -/
def Ordered : BNode → Prop
  | .nil => True
  | .node l k _ r =>
    (∀ j ∈ l.keys, j < k) ∧ (∀ j ∈ r.keys, k < j) ∧ Ordered l ∧ Ordered r

/-- The recursive insert preserves the search ordering. -/
theorem ordered_insertNode (key : Int) (t : BNode) (ho : Ordered t) :
    Ordered (BNode.insertNode key t).1 := by
  induction t with
  | nil => exact ⟨by simp [BNode.keys], by simp [BNode.keys], trivial, trivial⟩
  | node l k c r ihl ihr =>
    obtain ⟨hbl, hbr, hol, hor⟩ := ho
    simp only [BNode.insertNode]
    by_cases hk : key = k
    · rw [if_pos hk]
      exact ⟨hbl, hbr, hol, hor⟩
    · rw [if_neg hk]
      by_cases hgt : key > k
      · rw [if_pos hgt]
        by_cases hr : r = BNode.nil
        · rw [if_pos hr]
          refine ⟨hbl, ?_, hol, by simp [Ordered, BNode.keys]⟩
          intro j hj
          simp [BNode.keys] at hj
          omega
        · rw [if_neg hr]
          refine ⟨hbl, ?_, hol, ihr hor⟩
          intro j hj
          rw [mem_keys_insertNode] at hj
          rcases hj with rfl | hj
          · omega
          · exact hbr j hj
      · rw [if_neg hgt]
        by_cases hl : l = BNode.nil
        · rw [if_pos hl]
          refine ⟨?_, hbr, by simp [Ordered, BNode.keys], hor⟩
          intro j hj
          simp [BNode.keys] at hj
          omega
        · rw [if_neg hl]
          refine ⟨?_, hbr, ihl hol, hor⟩
          intro j hj
          rw [mem_keys_insertNode] at hj
          rcases hj with rfl | hj
          · omega
          · exact hbl j hj

/-- On an ordered tree, search-path membership coincides with key-list
membership. -/
theorem memB_iff_mem_keys (key : Int) (t : BNode) (ho : Ordered t) :
    memB key t = true ↔ key ∈ t.keys := by
  induction t with
  | nil => simp [memB, BNode.keys]
  | node l k c r ihl ihr =>
    obtain ⟨hbl, hbr, hol, hor⟩ := ho
    simp only [memB, BNode.keys, List.mem_append, List.mem_cons]
    by_cases hk : key = k
    · simp [hk]
    · rw [if_neg hk]
      by_cases hgt : key > k
      · rw [if_pos hgt]
        rw [ihr hor]
        constructor
        · intro h; tauto
        · rintro (h | h | h)
          · exact absurd (hbl key h) (by omega)
          · exact absurd h hk
          · exact h
      · rw [if_neg hgt]
        rw [ihl hol]
        constructor
        · intro h; tauto
        · rintro (h | h | h)
          · exact h
          · exact absurd h hk
          · exact absurd (hbr key h) (by omega)

/-- An ordered tree stores pairwise distinct keys. -/
theorem nodup_keys (t : BNode) (ho : Ordered t) : t.keys.Nodup := by
  induction t with
  | nil => simp [BNode.keys]
  | node l k c r ihl ihr =>
    obtain ⟨hbl, hbr, hol, hor⟩ := ho
    simp only [BNode.keys]
    refine List.Nodup.append (ihl hol) ?_ ?_
    · refine List.Nodup.cons ?_ (ihr hor)
      intro hmem
      exact absurd (hbr k hmem) (by omega)
    · intro j hjl hjr
      rcases List.mem_cons.mp hjr with rfl | hjr
      · exact absurd (hbl j hjl) (by omega)
      · have h1 := hbl j hjl
        have h2 := hbr j hjr
        omega

/-- The node count is the number of stored keys. -/
theorem size_eq_keys_length (t : BNode) : t.size = t.keys.length := by
  induction t with
  | nil => simp [BNode.size, BNode.keys]
  | node l k c r ihl ihr => simp [BNode.size, BNode.keys, ihl, ihr]; omega


/-- The state invariant maintained along `btree::insert` sequences: the
node graph is search-ordered and the maintained `node_count` matches the
number of allocated nodes. -/
def BtreeInv (t : Btree) : Prop :=
  Ordered t.root ∧ t.node_count = (t.root.size : Int)

/-- One public insert: the invariant is preserved, the grand count total
grows by one, and the key set gains the inserted key. -/
theorem insert_step (t : Btree) (key : Int) (h : BtreeInv t) :
    BtreeInv (t.insert key) ∧
    (t.insert key).root.total = t.root.total + 1 ∧
    (∀ j, j ∈ (t.insert key).root.keys ↔ j = key ∨ j ∈ t.root.keys) := by
  obtain ⟨ho, hc⟩ := h
  rcases hroot : t.root with _ | ⟨l, k, c, r⟩
  · refine ⟨⟨?_, ?_⟩, ?_, ?_⟩
    · simp [Btree.insert, hroot, Ordered, BNode.keys]
    · simp [Btree.insert, hroot, BNode.size]
    · simp [Btree.insert, hroot, BNode.total]
    · simp [Btree.insert, hroot, BNode.keys]
  · rw [hroot] at ho hc
    have hins := ordered_insertNode key _ ho
    have htot := total_insertNode key (BNode.node l k c r)
    have hkeys := fun j => mem_keys_insertNode key j (BNode.node l k c r)
    refine ⟨⟨?_, ?_⟩, ?_, ?_⟩
    · simpa [Btree.insert, hroot] using hins
    · simp only [Btree.insert, hroot]
      rcases hm : memB key (BNode.node l k c r) with _ | _
      · have hsz := size_insertNode_not_mem key (BNode.node l k c r) hm
        have hflag := snd_insertNode key (BNode.node l k c r)
        rw [hm] at hflag
        simp [hflag, hsz, hc]
      · have hsz := size_insertNode_mem key (BNode.node l k c r) hm
        have hflag := snd_insertNode key (BNode.node l k c r)
        rw [hm] at hflag
        simp [hflag, hsz, hc]
    · simpa [Btree.insert, hroot] using htot
    · intro j
      simpa [Btree.insert, hroot] using hkeys j

/-- Inserting a key list: invariant, count total and key set, accumulated
over the whole list. -/
theorem insertList_props (ks : List Int) (t : Btree) (h : BtreeInv t) :
    BtreeInv (t.insertList ks) ∧
    (t.insertList ks).root.total = t.root.total + ks.length ∧
    (∀ j, j ∈ (t.insertList ks).root.keys ↔ j ∈ t.root.keys ∨ j ∈ ks) := by
  induction ks generalizing t with
  | nil => simp [Btree.insertList, h]
  | cons a as ih =>
    obtain ⟨h1, h2, h3⟩ := insert_step t a h
    obtain ⟨ih1, ih2, ih3⟩ := ih (t.insert a) h1
    have hfold : t.insertList (a :: as) = (t.insert a).insertList as := rfl
    refine ⟨hfold ▸ ih1, ?_, ?_⟩
    · rw [hfold, ih2, h2]
      simp
      omega
    · intro j
      rw [hfold, ih3 j, h3 j]
      simp
      tauto


/-- C4: for every sequence of insertions into an initially empty frequency
tree, the sum returned by the traversal (in either direction, for every
visitor — a missing visitor is the identity state transformer, and the C++
callback returns nothing, so no visitor can influence the sum) equals the
number of insertions; the node count never exceeds the number of
insertions, with equality exactly when the inserted keys are pairwise
distinct. -/
theorem c4_frequency_tree (ks : List Int) {σ : Type} (f : Int → Int → σ → σ)
    (s : σ) :
    ((Btree.empty.insertList ks).constForwardIterator f s).1 = (ks.length : Int) ∧
    ((Btree.empty.insertList ks).constReverseIterator f s).1 = (ks.length : Int) ∧
    (Btree.empty.insertList ks).nodes ≤ (ks.length : Int) ∧
    ((Btree.empty.insertList ks).nodes = (ks.length : Int) ↔ ks.Nodup) := by
  have hinv0 : BtreeInv Btree.empty := ⟨trivial, rfl⟩
  obtain ⟨⟨ho, hc⟩, htot, hkeys⟩ := insertList_props ks Btree.empty hinv0
  have htot' : (Btree.empty.insertList ks).root.total = (ks.length : Int) := by
    simpa [Btree.empty, BNode.total] using htot
  have hmemks : ∀ j, j ∈ (Btree.empty.insertList ks).root.keys ↔ j ∈ ks := by
    intro j
    rw [hkeys j]
    simp [Btree.empty, BNode.keys]
  have hnodup : (Btree.empty.insertList ks).root.keys.Nodup := nodup_keys _ ho
  have hlen : (Btree.empty.insertList ks).root.keys.length = ks.dedup.length := by
    have hperm : (Btree.empty.insertList ks).root.keys.Perm ks.dedup :=
      (List.perm_ext_iff_of_nodup hnodup (List.nodup_dedup ks)).mpr
        (fun a => by rw [hmemks a, List.mem_dedup])
    exact hperm.length_eq
  have hnodes : (Btree.empty.insertList ks).nodes = (ks.dedup.length : Int) := by
    show (Btree.empty.insertList ks).node_count = _
    rw [hc, size_eq_keys_length, hlen]
  have hdle : ks.dedup.length ≤ ks.length :=
    List.Sublist.length_le (List.dedup_sublist ks)
  refine ⟨?_, ?_, ?_, ?_⟩
  · show (BNode.traverseNode f true (Btree.empty.insertList ks).root 0 s).1 = _
    rw [traverseNode_fst, htot', zero_add]
  · show (BNode.traverseNode f false (Btree.empty.insertList ks).root 0 s).1 = _
    rw [traverseNode_fst, htot', zero_add]
  · rw [hnodes]
    exact_mod_cast hdle
  · rw [hnodes]
    constructor
    · intro h
      have hlen2 : ks.dedup.length = ks.length := by exact_mod_cast h
      have hded : ks.dedup = ks :=
        (List.Sublist.length_eq (List.dedup_sublist ks)).mp hlen2
      rw [← hded]
      exact List.nodup_dedup ks
    · intro h
      rw [List.Nodup.dedup h]


/-! ### C6 development: the class-string parser -/

/-- The weighted sum named by the spec for C6 — "accumulates a weighted sum
whose multiplier doubles per position" — written on the spec's side: each
'1' at position `i` (0-based among the symbols after the first) contributes
the multiplier `m·2^i`. -/
def specWeightedSum : List Char → Int → Int
  | [], _ => 0
  | c :: cs, m => (if c = '1' then m else 0) + specWeightedSum cs (2 * m)

/-- `wrap64` is the identity on the `int64_t` range. -/
theorem wrap64_eq_self (x : Int) (h1 : -(2 ^ 63) ≤ x) (h2 : x < 2 ^ 63) :
    wrap64 x = x := by
  unfold wrap64
  rw [Int.emod_eq_of_lt (by omega) (by omega)]
  omega

/-- `abs64` is the identity on non-negative values. -/
theorem abs64_of_nonneg (x : Int) (h : 0 ≤ x) : abs64 x = x := by
  unfold abs64
  rw [if_neg (by omega), abs_of_nonneg h]

/-- A symbol that is neither '0' nor '1' anywhere in the remaining digits
forces the zero result. -/
theorem parseLoop_bad_digit (cs : List Char) (lcl mult : Int) (ro : Bool)
    (h : ∃ c ∈ cs, c ≠ '0' ∧ c ≠ '1') : parseLoop lcl mult ro cs = 0 := by
  induction cs generalizing lcl mult ro with
  | nil => simp at h
  | cons a as ih =>
    obtain ⟨c, hcmem, hc0, hc1⟩ := h
    simp only [parseLoop]
    rcases List.mem_cons.mp hcmem with rfl | hmem
    · rw [if_neg hc1, if_neg hc0]
    · by_cases ha1 : a = '1'
      · rw [if_pos ha1]
        split
        · rfl
        · exact ih _ _ _ ⟨c, hmem, hc0, hc1⟩
      · rw [if_neg ha1]
        by_cases ha0 : a = '0'
        · rw [if_pos ha0]
          exact ih _ _ _ ⟨c, hmem, hc0, hc1⟩
        · rw [if_neg ha0]

/-- Once the rollover flag is set it stays set, and any later '1' among
valid digits forces the zero result. -/
theorem parseLoop_rollover_sticky (cs : List Char) (lcl mult : Int)
    (hvalid : ∀ c ∈ cs, c = '0' ∨ c = '1') (h1 : '1' ∈ cs) :
    parseLoop lcl mult true cs = 0 := by
  induction cs generalizing lcl mult with
  | nil => simp at h1
  | cons a as ih =>
    simp only [parseLoop, Bool.true_or]
    by_cases ha1 : a = '1'
    · rw [if_pos ha1]
      simp
    · have ha0 : a = '0' := (hvalid a (List.mem_cons_self a as)).resolve_right ha1
      rw [if_neg ha1, if_pos ha0]
      have h1' : '1' ∈ as := by
        rcases List.mem_cons.mp h1 with h | h
        · exact absurd h.symm ha1
        · exact h
      exact ih _ _ (fun c hc => hvalid c (List.mem_cons_of_mem a hc)) h1'

/-- The detected overflow of the doubling multiplier, with a '1' digit
still to be added, forces the zero result at that very step. -/
theorem parseLoop_overflow_pending_one (lcl mult : Int) (cs : List Char)
    (hov : abs64 (wrap64 (mult * 2)) < mult) :
    parseLoop lcl mult false ('1' :: cs) = 0 := by
  simp only [parseLoop, Bool.false_or]
  simp [hov]


/-- Within the overflow-free range (at most 60 digits), the digit loop
computes the accumulated weighted sum exactly, with the multiplier doubling
per position. -/
theorem parseLoop_weighted (cs : List Char) (k : Nat) (lcl : Int)
    (hvalid : ∀ c ∈ cs, c = '0' ∨ c = '1')
    (hlen : cs.length + k ≤ 60)
    (hl0 : 0 ≤ lcl) (hlm : lcl < 6 * 2 ^ k) :
    parseLoop lcl (6 * 2 ^ k) false cs = lcl + specWeightedSum cs (6 * 2 ^ k) := by
  induction cs generalizing k lcl with
  | nil => simp [parseLoop, specWeightedSum]
  | cons a as ih =>
    have hlen' : as.length + (k + 1) ≤ 60 := by
      have hc : (a :: as).length = as.length + 1 := rfl
      omega
    have hpow : (2 : Int) ^ (k + 1) ≤ 2 ^ 60 :=
      pow_le_pow_right₀ (by norm_num) (by omega)
    have hppos : (0 : Int) < 2 ^ k := by positivity
    have hsucc : (6 : Int) * 2 ^ k * 2 = 6 * 2 ^ (k + 1) := by ring
    have hsucc' : (2 : Int) * (6 * 2 ^ k) = 6 * 2 ^ (k + 1) := by ring
    have hbound : 6 * 2 ^ k * 2 < (2 : Int) ^ 63 := by
      rw [hsucc]
      calc (6 : Int) * 2 ^ (k + 1) ≤ 6 * 2 ^ 60 := by linarith
        _ < 2 ^ 63 := by norm_num
    have hm2pos : (0 : Int) ≤ 6 * 2 ^ k * 2 := by positivity
    have hwrap2 : wrap64 (6 * 2 ^ k * 2) = 6 * 2 ^ k * 2 :=
      wrap64_eq_self _ (le_trans (by norm_num) hm2pos) hbound
    have hdec : decide (abs64 (wrap64 (6 * 2 ^ k * 2)) < 6 * 2 ^ k) = false := by
      rw [hwrap2, abs64_of_nonneg _ hm2pos]
      simp only [decide_eq_false_iff_not, not_lt]
      linarith
    have hvalid' : ∀ c ∈ as, c = '0' ∨ c = '1' :=
      fun c hc => hvalid c (List.mem_cons_of_mem a hc)
    simp only [parseLoop, Bool.false_or, hdec]
    rcases hvalid a (List.mem_cons_self a as) with rfl | rfl
    · rw [if_neg (by decide : ¬('0' : Char) = '1'), if_pos rfl, hwrap2, hsucc]
      rw [ih (k + 1) lcl hvalid' hlen' hl0 (by linarith)]
      simp [specWeightedSum, hsucc']
    · rw [if_pos rfl, if_neg (by simp)]
      have hwrapl : wrap64 (lcl + 6 * 2 ^ k) = lcl + 6 * 2 ^ k :=
        wrap64_eq_self _ (by linarith) (by linarith)
      rw [hwrapl, hwrap2, hsucc]
      rw [ih (k + 1) (lcl + 6 * 2 ^ k) hvalid' hlen' (by linarith) (by linarith)]
      simp [specWeightedSum, hsucc']
      ring


/-- The weighted sum of a digit list is non-negative and bounded by the
geometric total of its multipliers. -/
theorem specWeightedSum_bound (cs : List Char) (m : Int) (hm : 0 ≤ m) :
    0 ≤ specWeightedSum cs m ∧
    specWeightedSum cs m ≤ m * (2 ^ cs.length - 1) := by
  induction cs generalizing m with
  | nil => simp [specWeightedSum]
  | cons a as ih =>
    obtain ⟨ih1, ih2⟩ := ih (2 * m) (by linarith)
    simp only [specWeightedSum, List.length_cons]
    have hp : (2 : Int) ^ (as.length + 1) = 2 ^ as.length * 2 := by ring
    have hpos : (0 : Int) ≤ 2 ^ as.length := by positivity
    constructor
    · split <;> linarith
    · rw [hp]
      split <;> nlinarith

/-- `parseLoop_weighted` at the seed multiplier `M·D = 6`, together with
the bounds on the result needed to discharge the final `wrap64`. -/
theorem parseLoop_weighted6 (ds : List Char) (lcl : Int)
    (hvalid : ∀ c ∈ ds, c = '0' ∨ c = '1') (hlen : ds.length ≤ 60)
    (hl0 : 0 ≤ lcl) (hl6 : lcl < 6) :
    parseLoop lcl 6 false ds = lcl + specWeightedSum ds 6 ∧
    0 ≤ lcl + specWeightedSum ds 6 ∧
    lcl + specWeightedSum ds 6 < 2 ^ 63 := by
  have h6 : (6 : Int) = 6 * 2 ^ (0 : Nat) := by norm_num
  have hmain := parseLoop_weighted ds 0 lcl hvalid (by omega) hl0 (by norm_num; omega)
  have hb := specWeightedSum_bound ds 6 (by norm_num)
  have hpow : (2 : Int) ^ ds.length ≤ 2 ^ 60 :=
    pow_le_pow_right₀ (by norm_num) hlen
  refine ⟨?_, by linarith, ?_⟩
  · rw [h6]
    simpa using hmain
  · have h1 : specWeightedSum ds 6 ≤ 6 * (2 ^ 60 - 1) := by
      calc specWeightedSum ds 6 ≤ 6 * (2 ^ ds.length - 1) := hb.2
        _ ≤ 6 * (2 ^ 60 - 1) := by linarith
    have h2 : (6 : Int) * (2 ^ 60 - 1) < 2 ^ 63 - 6 := by norm_num
    linarith

/-- The sign-independent body of `parse` computes the signed weighted sum
for a valid, overflow-free class string. -/
theorem parseCore_weighted (sg : Int) (hsg : sg = 1 ∨ sg = -1) (d : Char)
    (hd : d ∈ ['0', '1', '2', '3', '4', '5'])
    (ds : List Char) (hvalid : ∀ c ∈ ds, c = '0' ∨ c = '1')
    (hlen : ds.length ≤ 60) :
    parseCore sg d ds = (((d.toNat : Int) - 48) + specWeightedSum ds 6) * sg := by
  have hrange : ¬(d < '0' ∨ d > '5') := by
    simp only [List.mem_cons, List.not_mem_nil, or_false] at hd
    rcases hd with rfl | rfl | rfl | rfl | rfl | rfl <;> decide
  have hl : 0 ≤ ((d.toNat : Int) - 48) ∧ ((d.toNat : Int) - 48) < 6 := by
    simp only [List.mem_cons, List.not_mem_nil, or_false] at hd
    rcases hd with rfl | rfl | rfl | rfl | rfl | rfl <;> exact ⟨by decide, by decide⟩
  obtain ⟨hmain, hge, hlt⟩ :=
    parseLoop_weighted6 ds ((d.toNat : Int) - 48) hvalid hlen hl.1 hl.2
  unfold parseCore
  rw [if_neg hrange, hmain]
  rcases hsg with rfl | rfl
  · simpa using wrap64_eq_self _ (by linarith) hlt
  · have hv : ((d.toNat : Int) - 48 + specWeightedSum ds 6) * (-1)
        = -((d.toNat : Int) - 48 + specWeightedSum ds 6) := by ring
    rw [hv]
    exact wrap64_eq_self _ (by linarith) (by linarith)


/-- C6: parsing an equivalence-class string accepts an optional leading
'+' or '-'; the first symbol must be in '0'..'5' and every later symbol
'0' or '1', a weighted sum accumulates with a multiplier that doubles per
position, and the result is zero whenever the first symbol is out of
range, a later symbol is invalid, or the doubling multiplier overflows
while a '1' digit still needs to be added (directly at the detection step,
and stickily for any later '1'). -/
theorem c6_parse_class_string :
    (∀ d ds, ¬(d = '+' ∨ d = '-') → (d < '0' ∨ d > '5') →
        parse (d :: ds) = 0) ∧
    (∀ s d ds, (s = '+' ∨ s = '-') → (d < '0' ∨ d > '5') →
        parse (s :: d :: ds) = 0) ∧
    (∀ d ds, ¬(d = '+' ∨ d = '-') → (∃ c ∈ ds, c ≠ '0' ∧ c ≠ '1') →
        parse (d :: ds) = 0) ∧
    (∀ s d ds, (s = '+' ∨ s = '-') → (∃ c ∈ ds, c ≠ '0' ∧ c ≠ '1') →
        parse (s :: d :: ds) = 0) ∧
    (∀ lcl mult cs, abs64 (wrap64 (mult * 2)) < mult →
        parseLoop lcl mult false ('1' :: cs) = 0) ∧
    (∀ cs lcl mult, (∀ c ∈ cs, c = '0' ∨ c = '1') → '1' ∈ cs →
        parseLoop lcl mult true cs = 0) ∧
    (∀ d ds, d ∈ ['0', '1', '2', '3', '4', '5'] →
        (∀ c ∈ ds, c = '0' ∨ c = '1') → ds.length ≤ 60 →
        parse (d :: ds) = ((d.toNat : Int) - 48) + specWeightedSum ds 6 ∧
        parse ('+' :: d :: ds) = ((d.toNat : Int) - 48) + specWeightedSum ds 6 ∧
        parse ('-' :: d :: ds) = -(((d.toNat : Int) - 48) + specWeightedSum ds 6)) := by
  refine ⟨?_, ?_, ?_, ?_, ?_, ?_, ?_⟩
  · intro d ds hns hrange
    simp only [parse]
    rw [if_neg hns]
    unfold parseCore
    rw [if_pos hrange]
  · intro s d ds hs hrange
    simp only [parse]
    rw [if_pos hs]
    show parseCore (if s = '-' then -1 else 1) d ds = 0
    unfold parseCore
    rw [if_pos hrange]
  · intro d ds hns hbad
    simp only [parse]
    rw [if_neg hns]
    unfold parseCore
    by_cases hrange : d < '0' ∨ d > '5'
    · rw [if_pos hrange]
    · rw [if_neg hrange, parseLoop_bad_digit ds _ _ _ hbad]
      norm_num [wrap64]
  · intro s d ds hs hbad
    simp only [parse]
    rw [if_pos hs]
    show parseCore (if s = '-' then -1 else 1) d ds = 0
    unfold parseCore
    by_cases hrange : d < '0' ∨ d > '5'
    · rw [if_pos hrange]
    · rw [if_neg hrange, parseLoop_bad_digit ds _ _ _ hbad]
      norm_num [wrap64]
  · exact fun lcl mult cs hov => parseLoop_overflow_pending_one lcl mult cs hov
  · exact fun cs lcl mult hvalid h1 => parseLoop_rollover_sticky cs lcl mult hvalid h1
  · intro d ds hd hvalid hlen
    have hns : ¬(d = '+' ∨ d = '-') := by
      simp only [List.mem_cons, List.not_mem_nil, or_false] at hd
      rcases hd with rfl | rfl | rfl | rfl | rfl | rfl <;> decide
    refine ⟨?_, ?_, ?_⟩
    · simp only [parse]
      rw [if_neg hns]
      simpa using parseCore_weighted 1 (Or.inl rfl) d hd ds hvalid hlen
    · simp only [parse]
      rw [if_pos (Or.inl trivial), if_neg (by decide : ¬('+' : Char) = '-')]
      simpa using parseCore_weighted 1 (Or.inl rfl) d hd ds hvalid hlen
    · simp only [parse]
      rw [if_pos (Or.inr trivial), if_pos trivial]
      rw [parseCore_weighted (-1) (Or.inr rfl) d hd ds hvalid hlen]
      ring

/-- C6 witness: each clause of `c6_parse_class_string` at a concrete
input — "6" and "+6" fail the range check; "52" and "-52" contain the
invalid later symbol '2'; a multiplier of 2^62 overflows on doubling with a
'1' pending; a set rollover flag zeroes any later '1'; and "5101" (with
its signed variants) decodes to 5 + 6 + 24 = 35. -/
theorem c6_witness :
    parse ['6'] = 0 ∧
    parse ['+', '6'] = 0 ∧
    parse ['5', '2'] = 0 ∧
    parse ['-', '5', '2'] = 0 ∧
    parseLoop 0 (2 ^ 62) false ['1'] = 0 ∧
    parseLoop 0 6 true ['1'] = 0 ∧
    parse ['5', '1', '0', '1']
      = ((('5' : Char).toNat : Int) - 48) + specWeightedSum ['1', '0', '1'] 6 :=
  ⟨c6_parse_class_string.1 '6' [] (by decide) (by decide),
   c6_parse_class_string.2.1 '+' '6' [] (Or.inl rfl) (by decide),
   c6_parse_class_string.2.2.1 '5' ['2'] (by decide)
     ⟨'2', by decide, by decide, by decide⟩,
   c6_parse_class_string.2.2.2.1 '-' '5' ['2'] (Or.inr rfl)
     ⟨'2', by decide, by decide, by decide⟩,
   c6_parse_class_string.2.2.2.2.1 0 (2 ^ 62) [] (by decide),
   c6_parse_class_string.2.2.2.2.2.1 ['1'] 0 6 (by decide) (by decide),
   (c6_parse_class_string.2.2.2.2.2.2 '5' ['1', '0', '1'] (by decide)
     (by decide) (by decide)).1⟩

end Collatz
